import Mathlib

/-!
Verification development for the espack dev server.

The embedding models JavaScript strings as `List Char` (`Str`), so that every
operation of the source is an executable, structurally recursive Lean function.
Sources embedded here:
  * `src/bundless/src/utils/convertors.ts` — the URL-path/file-path codec;
  * `src/bundless/src/prebundle/esbuild.ts` — the metafile analysis and the
    `serve.ts` part concatenated in the same source file: the plugins
    middleware, the HMR websocket wiring and the `NodeResolvePlugin.onResolved`
    prebundle hook.
Node's `path.posix` functions (`resolve`, `relative`, `normalize`, `basename`)
are embedded from their documented posix semantics, since the source calls
into them.
-/

set_option autoImplicit false

/-- JavaScript strings, modelled as lists of characters. -/
abbrev Str := List Char

/-- `hasPref pat s` is true when `pat` is a prefix of `s`
(JS `String.prototype.startsWith`). -/
def hasPref : Str → Str → Bool
  | [], _ => true
  | _ :: _, [] => false
  | p :: ps, c :: cs => p == c && hasPref ps cs

/-- `hasSub pat s` is true when `pat` occurs as a contiguous substring of `s`
(JS `String.prototype.includes`). -/
def hasSub (pat : Str) : Str → Bool
  | [] => hasPref pat []
  | s@(_ :: t) => hasPref pat s || hasSub pat t

/-- `hasSuf pat s` is true when `pat` is a suffix of `s`
(JS `String.prototype.endsWith`). -/
def hasSuf (pat s : Str) : Bool := hasPref pat.reverse s.reverse

/-- A posix path string is absolute when it starts with `'/'`. -/
def isAbs (s : Str) : Bool := s.head? == some '/'

/-- Split a string at every `'/'` (so `"a//b"` yields `["a", "", "b"]`). -/
def splitSlash : Str → List Str
  | [] => [[]]
  | c :: t =>
    if c = '/' then [] :: splitSlash t
    else
      match splitSlash t with
      | s :: rest => (c :: s) :: rest
      | [] => [[c]]

/-- Join path segments with `'/'`. -/
def joinSlash : List Str → Str
  | [] => []
  | [s] => s
  | s :: rest => s ++ '/' :: joinSlash rest

/-- Node's `normalizeString` with `allowAboveRoot = false` (the segment walk
used by `path.posix.resolve` and by `normalize` on absolute paths): empty and
`"."` segments are dropped, `".."` pops the last accumulated segment (and is
dropped at the root). -/
def resolveSegsAux (acc : List Str) : List Str → List Str
  | [] => acc
  | seg :: rest =>
    if seg = [] ∨ seg = ['.'] then resolveSegsAux acc rest
    else if seg = ['.', '.'] then resolveSegsAux acc.dropLast rest
    else resolveSegsAux (acc ++ [seg]) rest

/-- Resolved segment list of a path, starting from an empty stack. -/
def resolveSegs (l : List Str) : List Str := resolveSegsAux [] l

/-- Node's `normalizeString` with `allowAboveRoot = true` (used by
`path.posix.normalize` on relative paths): leading `".."` segments that cannot
be popped are kept. -/
def relSegsAux (acc : List Str) : List Str → List Str
  | [] => acc
  | seg :: rest =>
    if seg = [] ∨ seg = ['.'] then relSegsAux acc rest
    else if seg = ['.', '.'] then
      if acc = [] ∨ acc.getLast? = some ['.', '.'] then relSegsAux (acc ++ [seg]) rest
      else relSegsAux acc.dropLast rest
    else relSegsAux (acc ++ [seg]) rest

/-- Node's `path.posix.resolve(root, p)` for an absolute `root` (the only way
the source calls it): if `p` is absolute, `root` is ignored; otherwise `p` is
appended to `root`; the joined segments are then normalized with `".."`
clamped at the root.  The result is absolute and never has a trailing slash
(it is `"/"` when no segment remains). -/
def pathResolve (root p : Str) : Str :=
  if isAbs p then '/' :: joinSlash (resolveSegs (splitSlash p))
  else '/' :: joinSlash (resolveSegs (splitSlash root ++ splitSlash p))

/-- Drop the longest common prefix of two segment lists, returning the two
remainders. -/
def dropCommonPref : List Str → List Str → List Str × List Str
  | a :: as, b :: bs => if a = b then dropCommonPref as bs else (a :: as, b :: bs)
  | as, bs => (as, bs)

/-- Node's `path.posix.relative(base, p)` for absolute `base` and `p`: both
sides are resolved, the common segment prefix is dropped, and the result is
one `".."` per remaining `base` segment followed by the remaining `p`
segments. -/
def pathRelative (base p : Str) : Str :=
  let bs := resolveSegs (splitSlash base)
  let ps := resolveSegs (splitSlash p)
  let rests := dropCommonPref bs ps
  joinSlash (List.replicate rests.1.length ['.', '.'] ++ rests.2)

/-- Node's `path.posix.normalize`: segment normalization keeping a trailing
slash, with `".."` clamped at the root for absolute paths and preserved for
relative ones; a relative path normalizing to nothing becomes `"."`. -/
def pathNormalize (p : Str) : Str :=
  let abs := isAbs p
  let body := joinSlash ((if abs then resolveSegs else relSegs) (splitSlash p))
  let body := if body = [] ∧ ¬ abs then ['.'] else body
  let body := if body ≠ [] ∧ p.getLast? = some '/' then body ++ ['/'] else body
  if abs then '/' :: body else body
where
  relSegs (l : List Str) : List Str := relSegsAux [] l

/-- Node's `path.posix.basename`: the last segment, ignoring trailing
slashes. -/
def pathBasename (p : Str) : Str :=
  ((p.reverse.dropWhile (fun c => c == '/')).takeWhile (fun c => c != '/')).reverse

/-- The npm `slash` package: replace every backslash with a forward slash. -/
def slash (s : Str) : Str := s.map (fun c => if c = '\\' then '/' else c)

/-- Value of a hexadecimal digit character, if it is one. -/
def hexDigit? (c : Char) : Option Nat :=
  if '0' ≤ c ∧ c ≤ '9' then some (c.toNat - '0'.toNat)
  else if 'a' ≤ c ∧ c ≤ 'f' then some (c.toNat - 'a'.toNat + 10)
  else if 'A' ≤ c ∧ c ≤ 'F' then some (c.toNat - 'A'.toNat + 10)
  else none

/-- JS `decodeURIComponent`, for the single-byte case: a `%` followed by two
hex digits decodes to that character code; anything else is copied through.
The theorems below only apply it to strings without `'%'`, where it is the
identity. -/
def decodeURIComponent : Str → Str
  | [] => []
  | c :: t =>
    if c = '%' then
      match t with
      | h1 :: h2 :: t' =>
        match hexDigit? h1, hexDigit? h2 with
        | some a, some b => Char.ofNat (16 * a + b) :: decodeURIComponent t'
        | _, _ => '%' :: decodeURIComponent (h1 :: h2 :: t')
      | [] => [c]
      | [h1] => [c, h1]
    else c :: decodeURIComponent t

/-- Modelled from the spec: `cleanUrl` lives in `src/bundless/src/utils`,
which is not under `src/`; §4.1 says `toFilePath` must "strip query/hash", so
the URL is cut at the first `'?'` or `'#'`. -/
def cleanUrl (s : Str) : Str := s.takeWhile (fun c => c != '?' && c != '#')

/-- `replace(/\.\.\./g, '..')` — scan left to right, each non-overlapping
occurrence of three dots becomes two dots. -/
def rep3to2 : Str → Str
  | [] => []
  | [c] => [c]
  | [c1, c2] => [c1, c2]
  | c1 :: c2 :: c3 :: t =>
    if c1 = '.' ∧ c2 = '.' ∧ c3 = '.' then '.' :: '.' :: rep3to2 t
    else c1 :: rep3to2 (c2 :: c3 :: t)

/-- `replace(/\.\./g, '...')` — scan left to right, each non-overlapping
occurrence of two dots becomes three dots. -/
def rep2to3 : Str → Str
  | [] => []
  | [c] => [c]
  | c1 :: c2 :: t =>
    if c1 = '.' ∧ c2 = '.' then '.' :: '.' :: '.' :: rep2to3 t
    else c1 :: rep2to3 (c2 :: t)

/-- `convertors.ts`: the reserved escape token `'...'`. -/
def dotdotEncoding : Str := ['.', '.', '.']

/-- The literal `".."` segment. -/
def dotdot : Str := ['.', '.']

/-- `convertors.ts` `importPathToFile`: percent-decode, strip query/hash, drop
a leading `'/'`, resolve against `root`, then rewrite every `'...'` back to
`'..'`. -/
def importPathToFile (root request : Str) : Str :=
  let r1 := decodeURIComponent request
  let r2 := cleanUrl r1
  let r3 := if isAbs r2 then r2.tail else r2
  let r4 := pathResolve root r3
  rep3to2 r4

/-- `convertors.ts` `fileToImportPath`: resolve against `root`, take the path
relative to `root`, rewrite every `'..'` to the escape token `'...'`, prefix
with `'/'`. -/
def fileToImportPath (root filePath : Str) : Str :=
  let f1 := pathResolve root filePath
  let f2 := pathRelative root f1
  let f3 := rep2to3 f2
  '/' :: f3

/-- A path is under `root` when the resolved root segments are a prefix of its
resolved segments. -/
def underRoot (root p : Str) : Bool :=
  (resolveSegs (splitSlash root)).isPrefixOf (resolveSegs (splitSlash p))

/-- Characters with no special meaning to the URL layer of the codec
(`decodeURIComponent` rewrites `'%'` sequences, `cleanUrl` cuts at `'?'` and
`'#'`). -/
def okCh (c : Char) : Bool := c != '%' && c != '?' && c != '#'

/-- All characters of the string are `okCh`. -/
def okStr (s : Str) : Bool := s.all okCh

/-- The segment list of `pathRelative root (pathResolve root p)` before the
dot rewriting: one `".."` per root segment past the common prefix, then the
remaining target segments. -/
def relSegsOf (root p : Str) : List Str :=
  List.replicate
      (dropCommonPref (resolveSegs (splitSlash root)) (resolveSegs (splitSlash p))).1.length
      dotdot ++
    (dropCommonPref (resolveSegs (splitSlash root)) (resolveSegs (splitSlash p))).2

/-! ### The plugins middleware of serve.ts -/

/-- The literal `"*/*"`. -/
def starStar : Str := (r"*/*").data

/-- The literal `"script"`. -/
def scriptStr : Str := (r"script").data

/-- The literal `".map"`. -/
def dotMap : Str := (r".map").data

/-- The literal `"node_modules"`. -/
def nodeModulesStr : Str := (r"node_modules").data

/-- The literal `"chunk."`. -/
def chunkDot : Str := (r"chunk.").data

/-- The literal `"default"`. -/
def defaultStr : Str := (r"default").data

/-- The part of an incoming request the middleware looks at: `ctx.path` and
the two headers it reads. -/
structure HttpReq where
  path : Str
  accept : Option Str
  secFetchDest : Option Str
deriving DecidableEq

/-- Result of `pluginExecutor.load`, as consumed by the middleware (`loaded`
may be null, and `loaded.contents` may be null). -/
structure LoadResult where
  contents : Option Str
  loader : Str
deriving DecidableEq

/-- Result of `pluginExecutor.transform`, as consumed by the middleware. -/
structure TransformResult where
  contents : Str
  map : Option Str
deriving DecidableEq

/-- How one pass through the middleware ends: each `pass` constructor is one
of the `return next()` sites, `rejectRelative` is the thrown specifier error,
`served` is the response body assignment. -/
inductive MwOutcome
  | passRoot
  | passAccept
  | rejectRelative (msg : Str)
  | passNoLoad
  | passNoTransform
  | served (body : Str)
deriving DecidableEq

/-- True for the outcomes of requests the middleware intercepted, that is,
those that got past the root-path and accept-header filters. -/
def MwOutcome.intercepted : MwOutcome → Bool
  | .passRoot => false
  | .passAccept => false
  | _ => true

/-- True exactly for the thrown specifier rejection. -/
def MwOutcome.isReject : MwOutcome → Bool
  | .rejectRelative _ => true
  | _ => false

/-- The accept filter of the middleware: the request declares an ES-module
accept context. -/
def acceptContext (req : HttpReq) : Bool :=
  req.accept == some starStar || req.secFetchDest == some scriptStr ||
    hasSuf dotMap req.path

/-- The message of the thrown specifier error. -/
def rejectMsg (path : Str) : Str :=
  (r"All import paths should have been rewritten to absolute paths (start with /)").data
    ++ ['\n', ' '] ++ (r"make sure import paths for ").data ++ [Char.ofNat 39]
    ++ path ++ [Char.ofNat 39] ++ (r" are statically analyzable").data

/-- Modelled from the spec: `genSourceMapString` lives in `sourcemaps.ts`,
which is not under `src/`; §4.3 step 6 only requires the composed source map
to be serialized and appended to the body, so it is modelled as the
serialized map itself.  No claim depends on its rendering. -/
def genSourceMapString (m : Str) : Str := m

/-- One pass of the `pluginsMiddleware` request handler from serve.ts over a
request: the filters, the specifier rejection, the decode step, the lazy
out-of-root watch registration, and the load/transform/serve chain.  The
plugin executor is passed in as the two oracles `load` and `transform`;
`watched` is the watcher state (`watcher.add` appends to it).  Returns the
outcome together with the new watcher state. -/
def pluginsMiddlewareStep (root : Str) (watched : List Str) (req : HttpReq)
    (load : Str → Option LoadResult)
    (transform : Str → Str → Str → Option TransformResult) :
    MwOutcome × List Str :=
  if req.path = ['/'] then (.passRoot, watched)
  else if ¬ acceptContext req then (.passAccept, watched)
  else if req.path.head? = some '.' then (.rejectRelative (rejectMsg req.path), watched)
  else
    let filePath := importPathToFile root req.path
    let watched' :=
      if hasPref ('/' :: dotdotEncoding) req.path && !(hasSub nodeModulesStr filePath)
      then watched ++ [filePath] else watched
    match load filePath with
    | none => (.passNoLoad, watched')
    | some l =>
      match l.contents with
      | none => (.passNoLoad, watched')
      | some contents =>
        match transform filePath l.loader contents with
        | none => (.passNoTransform, watched')
        | some t =>
          let sourcemap := match t.map with
            | some m => genSourceMapString m
            | none => []
          (.served (t.contents ++ sourcemap), watched')

/-- A load oracle producing nothing, used by concrete counterexamples. -/
def loadNone : Str → Option LoadResult := fun _ => none

/-- A transform oracle producing nothing, used by concrete counterexamples. -/
def transformNone : Str → Str → Str → Option TransformResult := fun _ _ _ => none

/-! ### The HMR websocket wiring of serve.ts -/

/-- Modelled from the spec: the payload type lives in `client/types.ts`, which
is not under `src/`.  §3 and §6 list the server messages `connected`,
`update(paths, timestamp)`, `full-reload`, `error(message)` and the client
message `hotAccept(path)`. -/
inductive HMRPayload
  | connected
  | update (paths : List Str) (timestamp : Nat)
  | fullReload
  | errorMsg (message : Str)
  | hotAccept (path : Str)
deriving DecidableEq

/-- The per-module HMR flags of a graph node, as used by serve.ts
(`entry.hasHmrAccept`, `entry.isHmrEnabled`). -/
structure HmrNode where
  hasHmrAccept : Bool
  isHmrEnabled : Bool
deriving DecidableEq

/-- First-match association-list lookup, the JS object/map access. -/
def lookupKV {α : Type} : List (Str × α) → Str → Option α
  | [], _ => none
  | kv :: rest, k => if kv.1 = k then some kv.2 else lookupKV rest k

/-- Modelled from the spec: `Graph.ensureEntry` lives in `graph.ts`, which is
not under `src/`.  §3 specifies a lazy, idempotent get-or-create of the node
for a path, and §4.4 that the two flags are only set when a client reports
self-acceptance, so a fresh node starts with both flags false. -/
def ensureEntry (nodes : List (Str × HmrNode)) (k : Str) : List (Str × HmrNode) :=
  if (lookupKV nodes k).isSome then nodes else nodes ++ [(k, ⟨false, false⟩)]

/-- The body of the message listener of `hmrMiddleware`: parse the payload;
on `hotAccept` ensure the graph entry for the decoded path and set
`hasHmrAccept` and `isHmrEnabled` to true; ignore other messages. -/
def wsMessageHandler (root : Str) (nodes : List (Str × HmrNode)) (m : HMRPayload) :
    List (Str × HmrNode) :=
  match m with
  | .hotAccept path =>
    let key := importPathToFile root path
    (ensureEntry nodes key).map (fun kv => if kv.1 = key then (kv.1, ⟨true, true⟩) else kv)
  | _ => nodes

/-- Apply a function `n` times. -/
def applyN {α : Type} (f : α → α) : Nat → α → α
  | 0, a => a
  | n + 1, a => applyN f n (f a)

/-- Event-listener state of the HMR channel.  The source registers its message
listener with `wss.on` on the `WebSocket.Server` object, so the model keeps
two separate listener counts: listeners on the server object and listeners on
the connected client socket. -/
structure HmrServerModel where
  serverMessageListeners : Nat
  socketMessageListeners : Nat
  nodes : List (Str × HmrNode)
deriving DecidableEq

/-- The `connection` handler of `hmrMiddleware`: it sends `connected` and then
registers the message listener via `wss.on` — on the server object, not on
the socket. -/
def wssOnConnection (st : HmrServerModel) : HmrServerModel :=
  { st with serverMessageListeners := st.serverMessageListeners + 1 }

/-- Semantics of the `ws` library: data sent by a connected client fires the
`message` event of that client socket object; the `WebSocket.Server` object
emits `connection`/`error`/`close`/`headers` but never `message`.  So a
client message runs the handler once per listener registered on the socket. -/
def clientSend (root : Str) (st : HmrServerModel) (m : HMRPayload) : HmrServerModel :=
  { st with
    nodes := applyN (fun ns => wsMessageHandler root ns m) st.socketMessageListeners st.nodes }

/-- Fresh HMR wiring state: no listeners registered yet. -/
def initialHmrModel (nodes : List (Str × HmrNode)) : HmrServerModel :=
  ⟨0, 0, nodes⟩

/-! ### The prebundle hook `NodeResolvePlugin.onResolved` of serve.ts -/

/-- Modelled from the spec: `isNodeModule` lives in `src/bundless/src/utils`,
which is not under `src/`.  The spec calls a resolved path third-party when it
is a dependency under a node-modules directory. -/
def isNodeModule (p : Str) : Bool := hasSub nodeModulesStr p

/-- Join strings with a separator. -/
def joinWith (sep : Str) : List Str → Str
  | [] => []
  | [s] => s
  | s :: rest => s ++ sep ++ joinWith sep rest

/-- Models `JSON.stringify(bundleMap, null, 4)` up to whitespace: the map as a
JSON object literal.  No claim depends on the exact rendering. -/
def jsonStringifyMap (m : List (Str × Str)) : Str :=
  let q : Str → Str := fun s => Char.ofNat 34 :: s ++ [Char.ofNat 34]
  Char.ofNat 123 ::
    joinWith [',', ' '] (m.map (fun kv => q kv.1 ++ [':', ' '] ++ q kv.2))
    ++ [Char.ofNat 125]

/-- The server-wide mutable state touched by `onResolved`: the current bundle
map (`undefined` before the first prebundle) and, for the concurrency claims,
the number of prebundle invocations started so far. -/
structure PbState where
  bundleMap : Option (List (Str × Str))
  invocations : Nat
deriving DecidableEq

/-- Where one request is inside `onResolved`: before it runs, suspended at
`await prebundle(...)`, returned, or thrown. -/
inductive PbPhase
  | enter (resolvedPath : Str)
  | awaitingPrebundle (entryPoints : List Str) (relativePath : Str)
  | done (result : Option Str)
  | errored (msg : Str)
deriving DecidableEq

/-- The message prefix of the rethrown prebundle failure. -/
def cannotPrebundlePre : Str := (r"Cannot prebundle: ").data

/-- The message of the missing-bundle failure. -/
def bundleMissingMsg (relativePath : Str) (bm : List (Str × Str)) : Str :=
  (r"Bundle for ").data ++ [Char.ofNat 39] ++ relativePath ++ [Char.ofNat 39]
    ++ (r" was not generated in prebundling phase").data ++ ['\n']
    ++ jsonStringifyMap bm

/-- The JS truthiness test `bundleMap && bundleMap[relativePath]` of
`onResolved`: the current mapping for the package, where an absent map, a
missing key and an empty-string value all give the falsy empty string. -/
def bundleHit (st : PbState) (relativePath : Str) : Str :=
  match st.bundleMap with
  | some bm => (lookupKV bm relativePath).getD []
  | none => []

/-- The synchronous part of `onResolved`, up to its `await prebundle(...)`
suspension point: non third-party paths return undefined; a hit in the current
bundle map returns the mapped path; otherwise the entry points are collected
from the graph keys and a prebundle run is started (counted) before the
request suspends. -/
def onResolvedEnter (root : Str) (graphNodeKeys : List Str) (st : PbState)
    (resolvedPath : Str) : PbState × PbPhase :=
  if ¬ isNodeModule resolvedPath then (st, .done none)
  else
    let relativePath := slash (pathRelative root resolvedPath)
    let hit := bundleHit st relativePath
    if hit ≠ [] then (st, .done (some hit))
    else
      let entryPoints := graphNodeKeys.map (fun x => pathResolve root x)
      ({ st with invocations := st.invocations + 1 },
        .awaitingPrebundle entryPoints relativePath)

/-- The continuation of `onResolved` after `await prebundle(...)` settles: a
rejection is rethrown as the `Cannot prebundle` error without assigning the
bundle map; a fulfilled prebundle replaces the shared bundle map, and a falsy
entry for the requested package throws the missing-bundle error. -/
def onResolvedResume (st : PbState) (relativePath : Str)
    (outcome : Except Str (List (Str × Str))) : PbState × PbPhase :=
  match outcome with
  | .error e => (st, .errored (cannotPrebundlePre ++ e))
  | .ok bm =>
    let st' := { st with bundleMap := some bm }
    let webBundle := (lookupKV bm relativePath).getD []
    if webBundle ≠ [] then (st', .done (some webBundle))
    else (st', .errored (bundleMissingMsg relativePath bm))

/-- A whole `onResolved` run in which the prebundle invocation fails with
cause `e`: the synchronous part followed, if it suspended, by the failing
resumption. -/
def runOnResolvedFail (root : Str) (graphNodeKeys : List Str) (st : PbState)
    (resolvedPath : Str) (e : Str) : PbState × PbPhase :=
  let stepped := onResolvedEnter root graphNodeKeys st resolvedPath
  match stepped.2 with
  | .awaitingPrebundle _ rel => onResolvedResume stepped.1 rel (.error e)
  | _ => stepped

/-! ### The metafile analysis of prebundle/esbuild.ts -/

/-- The slice of one esbuild metafile output record that
`metafileToAnalysis` reads (`info.exports`, optional in the esbuild types). -/
structure EsbuildOutputInfo where
  exports : Option (List Str)
deriving DecidableEq

/-- The slice of the esbuild metafile that `metafileToAnalysis` reads: the
outputs object, as the list of its key/record pairs in key order. -/
structure EsbuildMetafile where
  outputs : List (Str × EsbuildOutputInfo)
deriving DecidableEq

/-- Modelled from the spec: `osAgnosticPath` lives in `prebundle/support.ts`,
which is not under `src/`.  §3 describes bundle-map keys as relative on-disk
paths, OS-agnostic, so the path is taken relative to the root with forward
slashes. -/
def osAgnosticPath (p root : Str) : Str := slash (pathRelative root p)

/-- The CommonJS test of `metafileToAnalysis`:
`info.exports?.length === 1 && info.exports?.[0] === 'default'`. -/
def exportsIsCommonjs (info : EsbuildOutputInfo) : Bool :=
  match info.exports with
  | some l => l.length == 1 && l.head? == some defaultStr
  | none => false

/-- `metafileToAnalysis` from prebundle/esbuild.ts: walk the metafile outputs;
skip outputs whose basename starts with the chunk prefix; keep an output only
when its export list is the single `default` export, mapping its os-agnostic
resolved path to `true`. -/
def metafileToAnalysis (meta : EsbuildMetafile) (root esbuildCwd : Str) :
    List (Str × Bool) :=
  meta.outputs.filterMap (fun oi =>
    if hasPref chunkDot (pathBasename oi.1) then none
    else if exportsIsCommonjs oi.2
    then some (osAgnosticPath (pathResolve esbuildCwd oi.1) root, true)
    else none)

/-! ## Helper lemmas: association lists -/

theorem lookupKV_append_of_none {α : Type} (l1 l2 : List (Str × α)) (k : Str)
    (h : lookupKV l1 k = none) : lookupKV (l1 ++ l2) k = lookupKV l2 k := by
  induction l1 with
  | nil => simp
  | cons kv rest ih =>
    by_cases hk : kv.1 = k
    · simp [lookupKV, hk] at h
    · simp only [List.cons_append, lookupKV, hk, if_false] at h ⊢
      exact ih h

theorem lookupKV_ensure (nodes : List (Str × HmrNode)) (k : Str) :
    (lookupKV (ensureEntry nodes k) k).isSome = true := by
  unfold ensureEntry
  by_cases h : (lookupKV nodes k).isSome
  · simp [h]
  · rw [if_neg (by simp [h])]
    rw [lookupKV_append_of_none _ _ _ (Option.not_isSome_iff_eq_none.mp (by simp [h]))]
    simp [lookupKV]

theorem lookupKV_map_set {α : Type} (l : List (Str × α)) (k : Str) (v : α)
    (h : (lookupKV l k).isSome = true) :
    lookupKV (l.map (fun kv => if kv.1 = k then (kv.1, v) else kv)) k = some v := by
  induction l with
  | nil => simp [lookupKV] at h
  | cons kv rest ih =>
    by_cases hk : kv.1 = k
    · simp [lookupKV, hk]
    · simp only [lookupKV, hk, if_false] at h
      simp only [List.map_cons, lookupKV, hk, if_neg hk, if_false]
      exact ih h

/-! ## C1 — the hotAccept registration -/

/-- C1: the spec says a connected client sending a hotAccept message makes the
server set both HMR flags on the graph node of the decoded path.  The source
registers the message listener with `wss.on` on the `WebSocket.Server` object,
which never emits the `message` event (client data fires it on the client
socket), so the graph is never touched by a client message — even though the
listener body itself (second conjunct) would ensure the entry and set both
flags exactly as the spec asks. -/
theorem claim_C1_hotAccept_listener_never_fires (root : Str)
    (nodes0 : List (Str × HmrNode)) (p : Str) :
    (clientSend root (wssOnConnection (initialHmrModel nodes0)) (.hotAccept p)).nodes = nodes0 ∧
    lookupKV (wsMessageHandler root nodes0 (.hotAccept p)) (importPathToFile root p) =
      some ⟨true, true⟩ := by
  refine ⟨rfl, ?_⟩
  show lookupKV ((ensureEntry nodes0 (importPathToFile root p)).map _) _ = _
  exact lookupKV_map_set _ _ _ (lookupKV_ensure _ _)

/-! ## C5, C6, C7 — the plugins middleware -/

/-- C6 (amended): a request is intercepted by the module-serving middleware
exactly when its path is not the bare root path and it declares an ES-module
accept context; the root path `/` is passed on even when it declares such a
context (see the counterexample). -/
theorem claim_C6_intercept_iff (root : Str) (watched : List Str) (req : HttpReq)
    (load : Str → Option LoadResult)
    (transform : Str → Str → Str → Option TransformResult) :
    ((pluginsMiddlewareStep root watched req load transform).1).intercepted =
      (!(req.path == ['/']) && acceptContext req) := by
  unfold pluginsMiddlewareStep
  by_cases h1 : req.path = ['/']
  · simp [h1, MwOutcome.intercepted]
  · by_cases h2 : acceptContext req
    · simp only [if_neg h1, h2, not_true_eq_false, if_false]
      by_cases h3 : req.path.head? = some '.'
      · simp [h3, MwOutcome.intercepted, h1, h2]
      · simp only [if_neg h3]
        rcases hl : load (importPathToFile root req.path) with _ | l
        · simp [hl, MwOutcome.intercepted, h1, h2]
        · rcases hc : l.contents with _ | cs
          · simp [hl, hc, MwOutcome.intercepted, h1, h2]
          · rcases ht : transform (importPathToFile root req.path) l.loader cs with _ | t
            · simp [hl, hc, ht, MwOutcome.intercepted, h1, h2]
            · simp [hl, hc, ht, MwOutcome.intercepted, h1, h2]
    · simp [h1, h2, MwOutcome.intercepted]

/-- C6 counterexample: the claim says interception is decided by the accept
context alone; but a request for the root path `/` that declares `accept:
*/*` is still passed to the next handler. -/
theorem claim_C6_counterexample :
    acceptContext ⟨['/'], some starStar, none⟩ = true ∧
    (pluginsMiddlewareStep ((r"/r").data) [] ⟨['/'], some starStar, none⟩
        loadNone transformNone).1 = .passRoot := by
  constructor
  · decide
  · rfl

/-- C5 (amended): an intercepted request is rejected with the thrown
specifier error exactly when its path starts with the character `.`; paths
with a relative segment elsewhere (for example `/a/../b`) are not rejected
(see the counterexample). -/
theorem claim_C5_reject_iff_leading_dot (root : Str) (watched : List Str) (req : HttpReq)
    (load : Str → Option LoadResult)
    (transform : Str → Str → Str → Option TransformResult) :
    ((pluginsMiddlewareStep root watched req load transform).1).isReject =
      (!(req.path == ['/']) && acceptContext req && (req.path.head? == some '.')) := by
  unfold pluginsMiddlewareStep
  by_cases h1 : req.path = ['/']
  · simp [h1, MwOutcome.isReject]
  · by_cases h2 : acceptContext req
    · simp only [if_neg h1, h2, not_true_eq_false, if_false]
      by_cases h3 : req.path.head? = some '.'
      · simp [h3, MwOutcome.isReject, h1, h2]
      · simp only [if_neg h3]
        rcases hl : load (importPathToFile root req.path) with _ | l
        · simp [hl, MwOutcome.isReject, h1, h2, h3]
        · rcases hc : l.contents with _ | cs
          · simp [hl, hc, MwOutcome.isReject, h1, h2, h3]
          · rcases ht : transform (importPathToFile root req.path) l.loader cs with _ | t
            · simp [hl, hc, ht, MwOutcome.isReject, h1, h2, h3]
            · simp [hl, hc, ht, MwOutcome.isReject, h1, h2, h3]
    · simp [h1, h2, MwOutcome.isReject]

/-- C5 counterexample: an intercepted request whose path contains a literal
`..` segment in the middle is not rejected — the source only tests whether the
path starts with a dot, so `/a/../b` flows on to the load stage. -/
theorem claim_C5_counterexample :
    ((splitSlash ((r"/a/../b").data)).contains dotdot) = true ∧
    ((pluginsMiddlewareStep ((r"/r").data) [] ⟨(r"/a/../b").data, some starStar, none⟩
        loadNone transformNone).1).intercepted = true ∧
    ((pluginsMiddlewareStep ((r"/r").data) [] ⟨(r"/a/../b").data, some starStar, none⟩
        loadNone transformNone).1).isReject = false := by
  refine ⟨by decide, by decide, by decide⟩

/-- C7 (amended): the watcher gains exactly one entry — the decoded file path
— when the request is intercepted, survives the leading-dot check, its path
starts with the `/...` escape-token prefix, and additionally the decoded path
does not contain `node_modules` (an exclusion the claim omits, see the
counterexample); in every other case the watcher state is unchanged. -/
theorem claim_C7_watch_registration (root : Str) (watched : List Str) (req : HttpReq)
    (load : Str → Option LoadResult)
    (transform : Str → Str → Str → Option TransformResult) :
    (pluginsMiddlewareStep root watched req load transform).2 =
      (if (!(req.path == ['/']) && acceptContext req && !(req.path.head? == some '.')
            && (hasPref ('/' :: dotdotEncoding) req.path
                && !(hasSub nodeModulesStr (importPathToFile root req.path))))
        then watched ++ [importPathToFile root req.path] else watched) := by
  unfold pluginsMiddlewareStep
  by_cases h1 : req.path = ['/']
  · simp [h1]
  · by_cases h2 : acceptContext req
    · by_cases h3 : req.path.head? = some '.'
      · simp [h1, h2, h3]
      · simp only [if_neg h1, h2, not_true_eq_false, if_false, if_neg h3]
        by_cases h4 : (hasPref ('/' :: dotdotEncoding) req.path
            && !(hasSub nodeModulesStr (importPathToFile root req.path))) = true
        · rcases hl : load (importPathToFile root req.path) with _ | l
          · simp [hl, h1, h2, h3, h4]
          · rcases hc : l.contents with _ | cs
            · simp [hl, hc, h1, h2, h3, h4]
            · rcases ht : transform (importPathToFile root req.path) l.loader cs with _ | t
              · simp [hl, hc, ht, h1, h2, h3, h4]
              · simp [hl, hc, ht, h1, h2, h3, h4]
        · rw [Bool.not_eq_true] at h4
          rcases hl : load (importPathToFile root req.path) with _ | l
          · simp [hl, h1, h2, h3, h4]
          · rcases hc : l.contents with _ | cs
            · simp [hl, hc, h1, h2, h3, h4]
            · rcases ht : transform (importPathToFile root req.path) l.loader cs with _ | t
              · simp [hl, hc, ht, h1, h2, h3, h4]
              · simp [hl, hc, ht, h1, h2, h3, h4]
    · simp [h1, h2]

/-- C7 counterexample: an intercepted request whose URL path begins with the
escape-token prefix but decodes to a path containing `node_modules` is not
added to the watcher, although the claim says every escape-prefixed request
registers its decoded path. -/
theorem claim_C7_counterexample :
    hasPref ('/' :: dotdotEncoding) ((r"/.../node_modules/a.js").data) = true ∧
    ((pluginsMiddlewareStep ((r"/r").data) []
        ⟨(r"/.../node_modules/a.js").data, some starStar, none⟩
        loadNone transformNone).1).intercepted = true ∧
    (pluginsMiddlewareStep ((r"/r").data) []
        ⟨(r"/.../node_modules/a.js").data, some starStar, none⟩
        loadNone transformNone).2 = [] := by
  refine ⟨by decide, by decide, by decide⟩

/-! ## C8, C9 — the prebundle hook -/

/-- C8 (amended): when the prebundle invocation fails, `onResolved` rethrows
and the request fails with an error whose message carries the underlying
cause after the fixed `Cannot prebundle:` prefix; the message does not name
the triggering package (see the counterexample). -/
theorem claim_C8_prebundle_error_carries_cause (root : Str) (graphNodeKeys : List Str)
    (st : PbState) (resolvedPath e : Str)
    (hn : isNodeModule resolvedPath = true)
    (hmiss : bundleHit st (slash (pathRelative root resolvedPath)) = []) :
    (runOnResolvedFail root graphNodeKeys st resolvedPath e).2 =
      .errored (cannotPrebundlePre ++ e) := by
  unfold runOnResolvedFail onResolvedEnter
  simp [hn, hmiss, onResolvedResume]

/-- C8 witness. -/
theorem claim_C8_witness :
    (runOnResolvedFail ((r"/r").data) [] ⟨none, 0⟩
        ((r"/r/node_modules/foo/index.js").data) ((r"boom").data)).2 =
      .errored (cannotPrebundlePre ++ (r"boom").data) :=
  claim_C8_prebundle_error_carries_cause ((r"/r").data) [] ⟨none, 0⟩
    ((r"/r/node_modules/foo/index.js").data) ((r"boom").data) (by decide) (by decide)

/-- C8 counterexample: the claim says the surfaced error identifies both the
package name and the cause; the rethrown message is the prefix plus the cause
only — for package `foo` the resulting message does not contain `foo`. -/
theorem claim_C8_counterexample :
    (runOnResolvedFail ((r"/r").data) [] ⟨none, 0⟩
        ((r"/r/node_modules/foo/index.js").data) ((r"boom").data)).2 =
      .errored ((r"Cannot prebundle: boom").data) ∧
    hasSub ((r"foo").data) ((r"Cannot prebundle: boom").data) = false := by
  refine ⟨by decide, by decide⟩

/-- C9: the spec requires two concurrent requests that both find their package
unbundled to share a single coalesced prebundle run.  The source has no
in-flight guard (its own comments note the missing lock), so under the event
loop the second request, entering before the first resumes from its await,
starts a second prebundle: after both synchronous parts run, two invocations
have been started and both requests sit suspended on their own run. -/
theorem claim_C9_duplicate_prebundle :
    ((onResolvedEnter ((r"/r").data) []
        (onResolvedEnter ((r"/r").data) [] ⟨none, 0⟩
          ((r"/r/node_modules/foo/index.js").data)).1
        ((r"/r/node_modules/bar/index.js").data)).1).invocations = 2 ∧
    (onResolvedEnter ((r"/r").data) [] ⟨none, 0⟩
        ((r"/r/node_modules/foo/index.js").data)).2 =
      .awaitingPrebundle [] ((r"node_modules/foo/index.js").data) ∧
    ((onResolvedEnter ((r"/r").data) []
        (onResolvedEnter ((r"/r").data) [] ⟨none, 0⟩
          ((r"/r/node_modules/foo/index.js").data)).1
        ((r"/r/node_modules/bar/index.js").data)).2) =
      .awaitingPrebundle [] ((r"node_modules/bar/index.js").data) := by
  refine ⟨by decide, by decide, by decide⟩

/-! ## C10 — the CommonJS-shape analysis -/

theorem exportsIsCommonjs_iff (info : EsbuildOutputInfo) :
    exportsIsCommonjs info = true ↔ info.exports = some [defaultStr] := by
  unfold exportsIsCommonjs
  rcases info with ⟨_ | l⟩
  · simp
  · rcases l with _ | ⟨x, _ | ⟨y, r⟩⟩ <;> simp [List.length]

/-- C10: in the analysis produced from the metafile, an output is recorded as
CommonJS (its key present, mapped to true) exactly when its basename does not
start with the chunk prefix and its export list is the single export
`default`; every entry of the analysis arises that way from some output. -/
theorem claim_C10_isCommonjs_iff (meta : EsbuildMetafile) (root esbuildCwd : Str) :
    (∀ o info, (o, info) ∈ meta.outputs →
        hasPref chunkDot (pathBasename o) = false →
        info.exports = some [defaultStr] →
        (osAgnosticPath (pathResolve esbuildCwd o) root, true) ∈
          metafileToAnalysis meta root esbuildCwd) ∧
    (∀ k b, (k, b) ∈ metafileToAnalysis meta root esbuildCwd →
        b = true ∧ ∃ o info, (o, info) ∈ meta.outputs ∧
          k = osAgnosticPath (pathResolve esbuildCwd o) root ∧
          hasPref chunkDot (pathBasename o) = false ∧
          info.exports = some [defaultStr]) := by
  constructor
  · intro o info hmem hchunk hexp
    unfold metafileToAnalysis
    refine List.mem_filterMap.mpr ⟨(o, info), hmem, ?_⟩
    simp only [hchunk, Bool.false_eq_true, if_false,
      (exportsIsCommonjs_iff ⟨info.exports⟩).mpr hexp]
    simp
  · intro k b hmem
    unfold metafileToAnalysis at hmem
    obtain ⟨⟨o, info⟩, ho, heq⟩ := List.mem_filterMap.mp hmem
    by_cases hchunk : hasPref chunkDot (pathBasename o) = true
    · simp [hchunk] at heq
    · rw [Bool.not_eq_true] at hchunk
      by_cases hcjs : exportsIsCommonjs info = true
      · simp only [hchunk, Bool.false_eq_true, if_false, hcjs, if_true] at heq
        obtain ⟨hk, hb⟩ := Prod.mk.injEq .. ▸ Option.some.injEq .. ▸ heq
        refine ⟨hb.symm, o, info, ho, hk.symm, hchunk, (exportsIsCommonjs_iff info).mp hcjs⟩
      · simp [hchunk, hcjs] at heq

/-- C10 witness. -/
theorem claim_C10_witness :
    (osAgnosticPath (pathResolve ((r"/cwd").data) ((r"web_modules/foo.js").data))
        ((r"/r").data), true) ∈
      metafileToAnalysis ⟨[((r"web_modules/foo.js").data, ⟨some [defaultStr]⟩)]⟩
        ((r"/r").data) ((r"/cwd").data) :=
  (claim_C10_isCommonjs_iff ⟨[((r"web_modules/foo.js").data, ⟨some [defaultStr]⟩)]⟩
      ((r"/r").data) ((r"/cwd").data)).1
    ((r"web_modules/foo.js").data) ⟨some [defaultStr]⟩ (by simp) (by decide) rfl

/-! ## Helper lemmas: the dot-run rewrites -/

theorem twoStepInduction {P : Str → Prop} (h0 : P []) (h1 : ∀ c, P [c])
    (h2 : ∀ c1 c2 t, P t → P (c2 :: t) → P (c1 :: c2 :: t)) : ∀ s, P s
  | [] => h0
  | [c] => h1 c
  | c1 :: c2 :: t =>
    h2 c1 c2 t (twoStepInduction h0 h1 h2 t) (twoStepInduction h0 h1 h2 (c2 :: t))

theorem threeStepInduction {P : Str → Prop} (h0 : P []) (h1 : ∀ c, P [c])
    (h2 : ∀ c1 c2, P [c1, c2])
    (h3 : ∀ c1 c2 c3 t, P t → P (c2 :: c3 :: t) → P (c1 :: c2 :: c3 :: t)) : ∀ s, P s
  | [] => h0
  | [c] => h1 c
  | [c1, c2] => h2 c1 c2
  | c1 :: c2 :: c3 :: t =>
    h3 c1 c2 c3 t (threeStepInduction h0 h1 h2 h3 t)
      (threeStepInduction h0 h1 h2 h3 (c2 :: c3 :: t))

theorem slash_ne_dot : ('/' : Char) ≠ '.' := by decide

@[simp] theorem rep2to3_nil : rep2to3 [] = [] := rfl

@[simp] theorem rep2to3_single (c : Char) : rep2to3 [c] = [c] := rfl

@[simp] theorem rep3to2_nil : rep3to2 [] = [] := rfl

@[simp] theorem rep3to2_single (c : Char) : rep3to2 [c] = [c] := rfl

@[simp] theorem rep3to2_pair (c1 c2 : Char) : rep3to2 [c1, c2] = [c1, c2] := rfl

theorem rep2to3_dots (t : Str) :
    rep2to3 ('.' :: '.' :: t) = '.' :: '.' :: '.' :: rep2to3 t := by
  simp [rep2to3]

theorem rep2to3_cons₂ (c1 c2 : Char) (t : Str) (h : ¬(c1 = '.' ∧ c2 = '.')) :
    rep2to3 (c1 :: c2 :: t) = c1 :: rep2to3 (c2 :: t) := by
  simp [rep2to3, h]

theorem rep2to3_cons_ne (c : Char) (t : Str) (h : c ≠ '.') :
    rep2to3 (c :: t) = c :: rep2to3 t := by
  cases t with
  | nil => rfl
  | cons c2 t' => exact rep2to3_cons₂ c c2 t' (fun hc => h hc.1)

theorem rep3to2_dots (t : Str) :
    rep3to2 ('.' :: '.' :: '.' :: t) = '.' :: '.' :: rep3to2 t := by
  simp [rep3to2]

theorem rep3to2_cons₃ (c1 c2 c3 : Char) (t : Str) (h : ¬(c1 = '.' ∧ c2 = '.' ∧ c3 = '.')) :
    rep3to2 (c1 :: c2 :: c3 :: t) = c1 :: rep3to2 (c2 :: c3 :: t) := by
  simp [rep3to2, h]

theorem rep3to2_cons₂ (c1 c2 : Char) (t : Str) (h : c2 ≠ '.') :
    rep3to2 (c1 :: c2 :: t) = c1 :: rep3to2 (c2 :: t) := by
  cases t with
  | nil => rfl
  | cons c3 t' => exact rep3to2_cons₃ c1 c2 c3 t' (fun hc => h hc.2.1)

theorem rep3to2_cons_ne (c : Char) (t : Str) (h : c ≠ '.') :
    rep3to2 (c :: t) = c :: rep3to2 t := by
  cases t with
  | nil => rfl
  | cons c2 t' =>
    cases t' with
    | nil => rfl
    | cons c3 t'' => exact rep3to2_cons₃ c c2 c3 t'' (fun hc => h hc.1)

theorem rep2to3_head (s : Str) : (rep2to3 s).head? = s.head? := by
  induction s using twoStepInduction with
  | h0 => rfl
  | h1 c => rfl
  | h2 c1 c2 t ih1 ih2 =>
    by_cases h : c1 = '.' ∧ c2 = '.'
    · rw [h.1, h.2, rep2to3_dots]; rfl
    · rw [rep2to3_cons₂ _ _ _ h]; rfl

theorem rep2to3_eq_nil_iff (s : Str) : rep2to3 s = [] ↔ s = [] := by
  induction s using twoStepInduction with
  | h0 => simp
  | h1 c => simp
  | h2 c1 c2 t ih1 ih2 =>
    by_cases h : c1 = '.' ∧ c2 = '.'
    · rw [h.1, h.2, rep2to3_dots]; simp
    · rw [rep2to3_cons₂ _ _ _ h]; simp

theorem rep2to3_eq_single (s : Str) (c : Char) (h : rep2to3 s = [c]) : s = [c] := by
  match s with
  | [] => simp at h
  | [d] => simpa using h
  | c1 :: c2 :: t =>
    by_cases hd : c1 = '.' ∧ c2 = '.'
    · rw [hd.1, hd.2, rep2to3_dots] at h; simp at h
    · rw [rep2to3_cons₂ _ _ _ hd] at h
      injection h with h1 h2
      exact absurd ((rep2to3_eq_nil_iff _).mp h2) (by simp)

theorem rep2to3_ne_dotdot (s : Str) : rep2to3 s ≠ dotdot := by
  intro h
  match s with
  | [] => simp [dotdot] at h
  | [c] => simp [dotdot] at h
  | c1 :: c2 :: t =>
    by_cases hd : c1 = '.' ∧ c2 = '.'
    · rw [hd.1, hd.2, rep2to3_dots] at h
      simp [dotdot] at h
    · rw [rep2to3_cons₂ _ _ _ hd] at h
      unfold dotdot at h
      injection h with h1 h2
      have h3 := rep2to3_eq_single _ _ h2
      injection h3 with h4 h5
      exact hd ⟨h1, h4⟩

theorem rep3to2_rep2to3 (s : Str) : rep3to2 (rep2to3 s) = s := by
  induction s using twoStepInduction with
  | h0 => rfl
  | h1 c => rfl
  | h2 c1 c2 t ih1 ih2 =>
    by_cases h : c1 = '.' ∧ c2 = '.'
    · rw [h.1, h.2, rep2to3_dots, rep3to2_dots, ih1]
    · rw [rep2to3_cons₂ _ _ _ h]
      by_cases hc1 : c1 = '.'
      · have hc2 : c2 ≠ '.' := fun hh => h ⟨hc1, hh⟩
        rcases he : rep2to3 (c2 :: t) with _ | ⟨d, ds⟩
        · exact absurd ((rep2to3_eq_nil_iff _).mp he) (by simp)
        · have hd : d = c2 := by
            have hh := rep2to3_head (c2 :: t)
            rw [he] at hh
            simpa using hh
          rw [rep3to2_cons₂ c1 d ds (hd ▸ hc2), ← he, ih2]
      · rw [rep3to2_cons_ne c1 _ hc1, ih2]

theorem rep2to3_append_slash (a b : Str) :
    rep2to3 (a ++ '/' :: b) = rep2to3 a ++ '/' :: rep2to3 b := by
  induction a using twoStepInduction with
  | h0 => simp [rep2to3_cons_ne '/' b slash_ne_dot]
  | h1 c =>
    rw [List.singleton_append, rep2to3_cons₂ c '/' b (fun hc => slash_ne_dot hc.2),
      rep2to3_cons_ne '/' b slash_ne_dot]
    simp
  | h2 c1 c2 t ih1 ih2 =>
    by_cases h : c1 = '.' ∧ c2 = '.'
    · rw [h.1, h.2]
      rw [show ('.' :: '.' :: t) ++ '/' :: b = '.' :: '.' :: (t ++ '/' :: b) from rfl,
        rep2to3_dots, rep2to3_dots, ih1]
      simp
    · rw [show (c1 :: c2 :: t) ++ '/' :: b = c1 :: c2 :: (t ++ '/' :: b) from rfl,
        rep2to3_cons₂ _ _ _ h, rep2to3_cons₂ _ _ _ h,
        show c2 :: (t ++ '/' :: b) = (c2 :: t) ++ '/' :: b from rfl, ih2]
      simp

theorem rep3to2_append_slash (a b : Str) :
    rep3to2 (a ++ '/' :: b) = rep3to2 a ++ '/' :: rep3to2 b := by
  induction a using threeStepInduction with
  | h0 => simp [rep3to2_cons_ne '/' b slash_ne_dot]
  | h1 c =>
    rw [List.singleton_append, rep3to2_cons₂ c '/' b slash_ne_dot,
      rep3to2_cons_ne '/' b slash_ne_dot]
    simp
  | h2 c1 c2 =>
    rw [show [c1, c2] ++ '/' :: b = c1 :: c2 :: '/' :: b from rfl,
      rep3to2_cons₃ c1 c2 '/' b (fun hc => slash_ne_dot hc.2.2),
      rep3to2_cons₂ c2 '/' b slash_ne_dot, rep3to2_cons_ne '/' b slash_ne_dot]
    simp
  | h3 c1 c2 c3 t ih1 ih2 =>
    by_cases h : c1 = '.' ∧ c2 = '.' ∧ c3 = '.'
    · rw [h.1, h.2.1, h.2.2]
      rw [show ('.' :: '.' :: '.' :: t) ++ '/' :: b = '.' :: '.' :: '.' :: (t ++ '/' :: b)
          from rfl, rep3to2_dots, rep3to2_dots, ih1]
      simp
    · rw [show (c1 :: c2 :: c3 :: t) ++ '/' :: b = c1 :: c2 :: c3 :: (t ++ '/' :: b) from rfl,
        rep3to2_cons₃ _ _ _ _ h, rep3to2_cons₃ _ _ _ _ h,
        show c2 :: c3 :: (t ++ '/' :: b) = (c2 :: c3 :: t) ++ '/' :: b from rfl, ih2]
      simp

theorem joinSlash_cons (x : Str) (xs : List Str) (h : xs ≠ []) :
    joinSlash (x :: xs) = x ++ '/' :: joinSlash xs := by
  cases xs with
  | nil => exact absurd rfl h
  | cons y ys => rfl

@[simp] theorem joinSlash_nil : joinSlash [] = [] := rfl

@[simp] theorem joinSlash_one (x : Str) : joinSlash [x] = x := rfl

theorem rep2to3_join (xs : List Str) :
    rep2to3 (joinSlash xs) = joinSlash (xs.map rep2to3) := by
  induction xs with
  | nil => rfl
  | cons x ys ih =>
    cases ys with
    | nil => rfl
    | cons y ys' =>
      rw [joinSlash_cons x (y :: ys') (by simp), rep2to3_append_slash, ih,
        show (x :: y :: ys').map rep2to3 = rep2to3 x :: (y :: ys').map rep2to3 from rfl,
        joinSlash_cons (rep2to3 x) ((y :: ys').map rep2to3) (by simp)]

theorem rep3to2_join (xs : List Str) :
    rep3to2 (joinSlash xs) = joinSlash (xs.map rep3to2) := by
  induction xs with
  | nil => rfl
  | cons x ys ih =>
    cases ys with
    | nil => rfl
    | cons y ys' =>
      rw [joinSlash_cons x (y :: ys') (by simp), rep3to2_append_slash, ih,
        show (x :: y :: ys').map rep3to2 = rep3to2 x :: (y :: ys').map rep3to2 from rfl,
        joinSlash_cons (rep3to2 x) ((y :: ys').map rep3to2) (by simp)]

theorem mem_rep2to3 (s : Str) (c : Char) (h : c ∈ rep2to3 s) : c ∈ s ∨ c = '.' := by
  induction s using twoStepInduction with
  | h0 => simp at h
  | h1 d => left; simpa using h
  | h2 c1 c2 t ih1 ih2 =>
    by_cases hd : c1 = '.' ∧ c2 = '.'
    · rw [hd.1, hd.2, rep2to3_dots] at h
      rcases List.mem_cons.mp h with h' | h'
      · right; exact h'
      · rcases List.mem_cons.mp h' with h'' | h''
        · right; exact h''
        · rcases List.mem_cons.mp h'' with h3 | h3
          · right; exact h3
          · rcases ih1 h3 with h4 | h4
            · left; exact List.mem_cons_of_mem _ (List.mem_cons_of_mem _ h4)
            · right; exact h4
    · rw [rep2to3_cons₂ _ _ _ hd] at h
      rcases List.mem_cons.mp h with h' | h'
      · left; exact h' ▸ List.mem_cons_self _ _
      · rcases ih2 h' with h'' | h''
        · left; exact List.mem_cons_of_mem _ h''
        · right; exact h''

/-! ## Helper lemmas: splitting and joining at slashes -/

@[simp] theorem splitSlash_nil : splitSlash [] = [[]] := rfl

@[simp] theorem splitSlash_slash_cons (t : Str) :
    splitSlash ('/' :: t) = [] :: splitSlash t := by
  rw [splitSlash, if_pos rfl]

theorem splitSlash_ne_nil (s : Str) : splitSlash s ≠ [] := by
  cases s with
  | nil => simp
  | cons c t =>
    rw [splitSlash]
    by_cases h : c = '/'
    · simp [h]
    · simp only [if_neg h]
      rcases hs : splitSlash t with _ | ⟨s0, rest⟩ <;> simp

theorem splitSlash_cons_ne (c : Char) (t : Str) (h : c ≠ '/') (s0 : Str) (rest : List Str)
    (hs : splitSlash t = s0 :: rest) : splitSlash (c :: t) = (c :: s0) :: rest := by
  rw [splitSlash, if_neg h, hs]

theorem joinSlash_splitSlash (s : Str) : joinSlash (splitSlash s) = s := by
  induction s with
  | nil => rfl
  | cons c t ih =>
    by_cases h : c = '/'
    · subst h
      rw [splitSlash_slash_cons, joinSlash_cons _ _ (splitSlash_ne_nil t), ih]
      rfl
    · rcases hs : splitSlash t with _ | ⟨s0, rest⟩
      · exact absurd hs (splitSlash_ne_nil t)
      · rw [splitSlash_cons_ne c t h s0 rest hs]
        have hjoin : joinSlash (splitSlash t) = t := ih
        rw [hs] at hjoin
        cases rest with
        | nil =>
          have hs0 : s0 = t := hjoin
          simp [joinSlash, hs0]
        | cons s1 rest' =>
          rw [joinSlash_cons _ _ (by simp),
            show (c :: s0) ++ '/' :: joinSlash (s1 :: rest') =
              c :: (s0 ++ '/' :: joinSlash (s1 :: rest')) from rfl,
            show s0 ++ '/' :: joinSlash (s1 :: rest') = joinSlash (s0 :: s1 :: rest') from
              (joinSlash_cons _ _ (by simp)).symm, hjoin]

theorem splitSlash_no_slash (s : Str) : ∀ seg ∈ splitSlash s, '/' ∉ seg := by
  induction s with
  | nil =>
    intro seg h
    simp at h
    simp [h]
  | cons c t ih =>
    by_cases hc : c = '/'
    · subst hc
      rw [splitSlash_slash_cons]
      intro seg h
      rcases List.mem_cons.mp h with h | h
      · simp [h]
      · exact ih seg h
    · rcases hs : splitSlash t with _ | ⟨s0, rest⟩
      · exact absurd hs (splitSlash_ne_nil t)
      · rw [splitSlash_cons_ne c t hc s0 rest hs]
        intro seg h
        rcases List.mem_cons.mp h with h | h
        · subst h
          intro hmem
          rcases List.mem_cons.mp hmem with h' | h'
          · exact hc h'.symm
          · exact ih s0 (by rw [hs]; exact List.mem_cons_self _ _) h'
        · exact ih seg (by rw [hs]; exact List.mem_cons_of_mem _ h)

theorem splitSlash_eq_single (x : Str) (h : '/' ∉ x) : splitSlash x = [x] := by
  induction x with
  | nil => rfl
  | cons c t ih =>
    have hc : c ≠ '/' := fun hh => h (hh ▸ List.mem_cons_self _ _)
    have ht : '/' ∉ t := fun hh => h (List.mem_cons_of_mem _ hh)
    rw [splitSlash_cons_ne c t hc t [] (ih ht)]

theorem splitSlash_append_slash (x b : Str) (h : '/' ∉ x) :
    splitSlash (x ++ '/' :: b) = x :: splitSlash b := by
  induction x with
  | nil => simp
  | cons c t ih =>
    have hc : c ≠ '/' := fun hh => h (hh ▸ List.mem_cons_self _ _)
    have ht : '/' ∉ t := fun hh => h (List.mem_cons_of_mem _ hh)
    rcases hs : splitSlash (t ++ '/' :: b) with _ | ⟨s0, rest⟩
    · exact absurd hs (splitSlash_ne_nil _)
    · have := ih ht
      rw [hs] at this
      injection this with h1 h2
      rw [List.cons_append, splitSlash_cons_ne c _ hc s0 rest hs, h1, h2]

theorem splitSlash_joinSlash (segs : List Str) (hne : segs ≠ [])
    (h : ∀ seg ∈ segs, '/' ∉ seg) : splitSlash (joinSlash segs) = segs := by
  induction segs with
  | nil => exact absurd rfl hne
  | cons x ys ih =>
    cases ys with
    | nil =>
      show splitSlash (joinSlash [x]) = [x]
      rw [show joinSlash [x] = x from rfl]
      exact splitSlash_eq_single x (h x (by simp))
    | cons y ys' =>
      rw [joinSlash_cons _ _ (by simp), splitSlash_append_slash x _ (h x (by simp)),
        ih (by simp) (fun seg hs => h seg (List.mem_cons_of_mem _ hs))]

theorem mem_splitSlash_chars (s : Str) : ∀ seg ∈ splitSlash s, ∀ c ∈ seg, c ∈ s := by
  induction s with
  | nil =>
    intro seg hs c hc
    simp at hs
    subst hs
    simp at hc
  | cons a t ih =>
    by_cases ha : a = '/'
    · subst ha
      rw [splitSlash_slash_cons]
      intro seg hs c hc
      rcases List.mem_cons.mp hs with h | h
      · subst h; simp at hc
      · exact List.mem_cons_of_mem _ (ih seg h c hc)
    · rcases hsp : splitSlash t with _ | ⟨s0, rest⟩
      · exact absurd hsp (splitSlash_ne_nil t)
      · rw [splitSlash_cons_ne a t ha s0 rest hsp]
        intro seg hs c hc
        rcases List.mem_cons.mp hs with h | h
        · subst h
          rcases List.mem_cons.mp hc with h' | h'
          · simp [h']
          · exact List.mem_cons_of_mem _
              (ih s0 (by rw [hsp]; exact List.mem_cons_self _ _) c h')
        · exact List.mem_cons_of_mem _
            (ih seg (by rw [hsp]; exact List.mem_cons_of_mem _ h) c hc)

theorem splitSlash_head_app (t : Str) (s0 : Str) (rest : List Str)
    (h : splitSlash t = s0 :: rest) : ∃ u, t = s0 ++ u := by
  have hj := joinSlash_splitSlash t
  rw [h] at hj
  cases rest with
  | nil => exact ⟨[], by simpa using hj.symm⟩
  | cons s1 r' =>
    refine ⟨'/' :: joinSlash (s1 :: r'), ?_⟩
    rw [← hj, joinSlash_cons _ _ (by simp)]

/-! ## Helper lemmas: substrings, identity of the URL-layer decoders -/

theorem hasPref_append (pat a u : Str) (h : hasPref pat a = true) :
    hasPref pat (a ++ u) = true := by
  induction pat generalizing a with
  | nil => rfl
  | cons p ps ih =>
    cases a with
    | nil => simp [hasPref] at h
    | cons c cs =>
      simp only [hasPref, Bool.and_eq_true, beq_iff_eq] at h
      simp only [List.cons_append, hasPref, Bool.and_eq_true, beq_iff_eq]
      exact ⟨h.1, ih cs h.2⟩

theorem hasSub_cons (pat : Str) (c : Char) (t : Str) :
    hasSub pat (c :: t) = (hasPref pat (c :: t) || hasSub pat t) := rfl

theorem hasSub_append (pat a u : Str) (h : hasSub pat a = true) :
    hasSub pat (a ++ u) = true := by
  induction a with
  | nil =>
    cases pat with
    | nil =>
      cases u with
      | nil => rfl
      | cons c t => simp [hasSub_cons, hasPref]
    | cons p ps => simp [hasSub, hasPref] at h
  | cons c cs ih =>
    rw [List.cons_append, hasSub_cons]
    rw [hasSub_cons] at h
    simp only [Bool.or_eq_true] at h ⊢
    rcases h with h | h
    · left
      have := hasPref_append pat (c :: cs) u h
      rwa [List.cons_append] at this
    · right; exact ih h

theorem hasSub_tail_false (pat : Str) (c : Char) (t : Str)
    (h : hasSub pat (c :: t) = false) : hasSub pat t = false := by
  rw [hasSub_cons] at h
  simp only [Bool.or_eq_false_iff] at h
  exact h.2

theorem hasSub_seg_false (pat : Str) (hpat : pat ≠ []) (s : Str) :
    hasSub pat s = false → ∀ seg ∈ splitSlash s, hasSub pat seg = false := by
  induction s with
  | nil =>
    intro h seg hs
    simp at hs
    subst hs
    cases pat with
    | nil => exact absurd rfl hpat
    | cons p ps => simp [hasSub, hasPref]
  | cons c t ih =>
    intro h seg hs
    have ht : hasSub pat t = false := hasSub_tail_false pat c t h
    by_cases hc : c = '/'
    · subst hc
      rw [splitSlash_slash_cons] at hs
      rcases List.mem_cons.mp hs with h' | h'
      · subst h'
        cases pat with
        | nil => exact absurd rfl hpat
        | cons p ps => simp [hasSub, hasPref]
      · exact ih ht seg h'
    · rcases hsp : splitSlash t with _ | ⟨s0, rest⟩
      · exact absurd hsp (splitSlash_ne_nil t)
      · rw [splitSlash_cons_ne c t hc s0 rest hsp] at hs
        rcases List.mem_cons.mp hs with h' | h'
        · subst h'
          obtain ⟨u, hu⟩ := splitSlash_head_app t s0 rest hsp
          by_contra hfalse
          have htrue : hasSub pat (c :: s0) = true := by
            cases hx : hasSub pat (c :: s0) with
            | false => exact absurd hx hfalse
            | true => rfl
          have hext : hasSub pat ((c :: s0) ++ u) = true := hasSub_append _ _ _ htrue
          rw [show (c :: s0) ++ u = c :: t from by rw [List.cons_append, ← hu]] at hext
          rw [h] at hext
          exact Bool.false_ne_true hext
        · exact ih ht seg (by rw [hsp]; exact List.mem_cons_of_mem _ h')

theorem rep3to2_id_of_no_dots (s : Str) :
    hasSub dotdotEncoding s = false → rep3to2 s = s := by
  induction s using threeStepInduction with
  | h0 => intro _; rfl
  | h1 c => intro _; rfl
  | h2 c1 c2 => intro _; rfl
  | h3 c1 c2 c3 t ih1 ih2 =>
    intro h
    by_cases hd : c1 = '.' ∧ c2 = '.' ∧ c3 = '.'
    · exfalso
      have hpref : hasPref dotdotEncoding (c1 :: c2 :: c3 :: t) = true := by
        rw [hd.1, hd.2.1, hd.2.2]
        simp [dotdotEncoding, hasPref]
      rw [hasSub_cons] at h
      simp only [Bool.or_eq_false_iff] at h
      rw [hpref] at h
      simp at h
    · rw [rep3to2_cons₃ c1 c2 c3 t hd, ih2 (hasSub_tail_false _ _ _ h)]

theorem decodeURIComponent_id (s : Str) (h : ∀ c ∈ s, c ≠ '%') :
    decodeURIComponent s = s := by
  induction s with
  | nil => rfl
  | cons c t ih =>
    have hc : c ≠ '%' := h c (List.mem_cons_self _ _)
    rw [decodeURIComponent.eq_def]
    simp only [if_neg hc]
    rw [ih (fun d hd => h d (List.mem_cons_of_mem _ hd))]

theorem cleanUrl_id (s : Str) (h : ∀ c ∈ s, c ≠ '?' ∧ c ≠ '#') : cleanUrl s = s := by
  induction s with
  | nil => rfl
  | cons c t ih =>
    obtain ⟨h1, h2⟩ := h c (List.mem_cons_self _ _)
    unfold cleanUrl
    rw [List.takeWhile_cons, if_pos (by simp [h1, h2])]
    have := ih (fun d hd => h d (List.mem_cons_of_mem _ hd))
    unfold cleanUrl at this
    rw [this]

/-! ## Helper lemmas: segment normalization -/

theorem resolveSegsAux_cons (acc : List Str) (seg : Str) (rest : List Str) :
    resolveSegsAux acc (seg :: rest) =
      if seg = [] ∨ seg = ['.'] then resolveSegsAux acc rest
      else if seg = ['.', '.'] then resolveSegsAux acc.dropLast rest
      else resolveSegsAux (acc ++ [seg]) rest := rfl

theorem resolveSegsAux_append (a b : List Str) : ∀ acc : List Str,
    resolveSegsAux acc (a ++ b) = resolveSegsAux (resolveSegsAux acc a) b := by
  induction a with
  | nil => intro acc; rfl
  | cons seg rest ih =>
    intro acc
    rw [List.cons_append, resolveSegsAux_cons, resolveSegsAux_cons]
    by_cases h1 : seg = [] ∨ seg = ['.']
    · rw [if_pos h1, if_pos h1, ih]
    · rw [if_neg h1, if_neg h1]
      by_cases h2 : seg = ['.', '.']
      · rw [if_pos h2, if_pos h2, ih]
      · rw [if_neg h2, if_neg h2, ih]

theorem resolveSegsAux_fixed (l : List Str)
    (hgood : ∀ seg ∈ l, seg ≠ [] ∧ seg ≠ ['.'] ∧ seg ≠ ['.', '.']) :
    ∀ acc : List Str, resolveSegsAux acc l = acc ++ l := by
  induction l with
  | nil => intro acc; simp [resolveSegsAux]
  | cons seg rest ih =>
    intro acc
    obtain ⟨h1, h2, h3⟩ := hgood seg (List.mem_cons_self _ _)
    rw [resolveSegsAux_cons, if_neg (by tauto), if_neg h3,
      ih (fun s hs => hgood s (List.mem_cons_of_mem _ hs))]
    simp

theorem mem_of_mem_dropLast {α : Type} (l : List α) (x : α) (h : x ∈ l.dropLast) :
    x ∈ l := by
  induction l with
  | nil => simp at h
  | cons a t ih =>
    cases t with
    | nil => simp at h
    | cons b t' =>
      rw [List.dropLast_cons₂] at h
      rcases List.mem_cons.mp h with h' | h'
      · simp [h']
      · exact List.mem_cons_of_mem _ (ih h')

theorem resolveSegsAux_mem (l : List Str) : ∀ acc x, x ∈ resolveSegsAux acc l →
    x ∈ acc ∨ (x ∈ l ∧ x ≠ [] ∧ x ≠ ['.'] ∧ x ≠ ['.', '.']) := by
  induction l with
  | nil =>
    intro acc x h
    left
    simpa [resolveSegsAux] using h
  | cons seg rest ih =>
    intro acc x h
    rw [resolveSegsAux_cons] at h
    by_cases h1 : seg = [] ∨ seg = ['.']
    · rw [if_pos h1] at h
      rcases ih acc x h with h' | h'
      · left; exact h'
      · right; exact ⟨List.mem_cons_of_mem _ h'.1, h'.2⟩
    · rw [if_neg h1] at h
      by_cases h2 : seg = ['.', '.']
      · rw [if_pos h2] at h
        rcases ih _ x h with h' | h'
        · left; exact mem_of_mem_dropLast _ _ h'
        · right; exact ⟨List.mem_cons_of_mem _ h'.1, h'.2⟩
      · rw [if_neg h2] at h
        rcases ih _ x h with h' | h'
        · rcases List.mem_append.mp h' with h'' | h''
          · left; exact h''
          · right
            have hx : x = seg := by simpa using h''
            subst hx
            exact ⟨List.mem_cons_self _ _, by tauto, by tauto, h2⟩
        · right; exact ⟨List.mem_cons_of_mem _ h'.1, h'.2⟩

theorem resolveSegs_good (l : List Str) (x : Str) (h : x ∈ resolveSegs l) :
    x ∈ l ∧ x ≠ [] ∧ x ≠ ['.'] ∧ x ≠ ['.', '.'] := by
  rcases resolveSegsAux_mem l [] x h with h' | h'
  · simp at h'
  · exact h'

theorem resolveSegsAux_pop (fr : List Str) : ∀ com : List Str,
    resolveSegsAux (com ++ fr) (List.replicate fr.length dotdot) = com := by
  induction fr using List.reverseRecOn with
  | nil => intro com; simp [resolveSegsAux]
  | append_singleton fs f ih =>
    intro com
    rw [List.length_append, List.length_singleton, List.replicate_succ,
      resolveSegsAux_cons, if_neg (by decide), if_pos (by decide)]
    have hdl : (com ++ (fs ++ [f])).dropLast = com ++ fs := by
      rw [← List.append_assoc, List.dropLast_concat]
    rw [hdl, ih com]

theorem dropCommonPref_spec : ∀ a b : List Str, ∃ com : List Str,
    a = com ++ (dropCommonPref a b).1 ∧ b = com ++ (dropCommonPref a b).2 := by
  intro a
  induction a with
  | nil => intro b; exact ⟨[], by simp [dropCommonPref], by simp [dropCommonPref]⟩
  | cons x as ih =>
    intro b
    cases b with
    | nil => exact ⟨[], by simp [dropCommonPref], by simp [dropCommonPref]⟩
    | cons y bs =>
      by_cases h : x = y
      · subst h
        obtain ⟨com, h1, h2⟩ := ih bs
        have hstep : dropCommonPref (x :: as) (x :: bs) = dropCommonPref as bs := by
          simp [dropCommonPref]
        refine ⟨x :: com, ?_, ?_⟩
        · rw [hstep, List.cons_append, ← h1]
        · rw [hstep, List.cons_append, ← h2]
      · exact ⟨[], by simp [dropCommonPref, h], by simp [dropCommonPref, h]⟩

theorem dropCommonPref_append (a t : List Str) : dropCommonPref a (a ++ t) = ([], t) := by
  induction a with
  | nil =>
    cases t with
    | nil => rfl
    | cons x xs => rfl
  | cons x as ih => simpa [dropCommonPref] using ih

theorem isPrefixOf_ex {α : Type} [BEq α] [LawfulBEq α] (a b : List α) :
    a.isPrefixOf b = true ↔ ∃ t, b = a ++ t := by
  induction a generalizing b with
  | nil =>
    simp only [List.isPrefixOf, List.nil_append]
    exact ⟨fun _ => ⟨b, rfl⟩, fun _ => trivial⟩
  | cons x as ih =>
    cases b with
    | nil =>
      simp only [List.isPrefixOf]
      constructor
      · intro h; exact absurd h (by simp)
      · rintro ⟨t, ht⟩; simp at ht
    | cons y bs =>
      simp only [List.isPrefixOf, Bool.and_eq_true, beq_iff_eq, ih]
      constructor
      · rintro ⟨hxy, t, ht⟩
        exact ⟨t, by rw [List.cons_append, hxy, ht]⟩
      · rintro ⟨t, ht⟩
        rw [List.cons_append] at ht
        injection ht with h1 h2
        exact ⟨h1.symm, t, h2⟩

/-! ## Helper lemmas: shape of the codec -/

theorem mem_joinSlash (xs : List Str) (c : Char) (h : c ∈ joinSlash xs) :
    (∃ x ∈ xs, c ∈ x) ∨ c = '/' := by
  induction xs with
  | nil => simp at h
  | cons x ys ih =>
    cases ys with
    | nil => left; exact ⟨x, by simp, by simpa using h⟩
    | cons y ys' =>
      rw [joinSlash_cons _ _ (by simp)] at h
      rcases List.mem_append.mp h with h' | h'
      · left; exact ⟨x, by simp, h'⟩
      · rcases List.mem_cons.mp h' with h'' | h''
        · right; exact h''
        · rcases ih h'' with ⟨z, hz, hcz⟩ | h3
          · left; exact ⟨z, List.mem_cons_of_mem _ hz, hcz⟩
          · right; exact h3

theorem joinSlash_head (x : Str) (xs : List Str) (hx : x ≠ []) :
    (joinSlash (x :: xs)).head? = x.head? := by
  cases xs with
  | nil => rfl
  | cons y ys =>
    rw [joinSlash_cons _ _ (by simp)]
    cases x with
    | nil => exact absurd rfl hx
    | cons c t => rfl

theorem pathResolve_abs (root p : Str) (hp : isAbs p = true) :
    pathResolve root p = '/' :: joinSlash (resolveSegs (splitSlash p)) := by
  unfold pathResolve
  rw [if_pos hp]

theorem reparse_resolved (T : List Str) (hns : ∀ seg ∈ T, '/' ∉ seg)
    (hgood : ∀ seg ∈ T, seg ≠ [] ∧ seg ≠ ['.'] ∧ seg ≠ ['.', '.']) :
    resolveSegs (splitSlash ('/' :: joinSlash T)) = T := by
  rw [splitSlash_slash_cons]
  show resolveSegsAux [] ([] :: splitSlash (joinSlash T)) = T
  rw [resolveSegsAux_cons, if_pos (Or.inl rfl)]
  cases T with
  | nil =>
    show resolveSegsAux [] (splitSlash []) = []
    rw [splitSlash_nil, resolveSegsAux_cons, if_pos (Or.inl rfl)]
    rfl
  | cons x xs =>
    rw [splitSlash_joinSlash (x :: xs) (by simp) hns]
    rw [resolveSegsAux_fixed (x :: xs) hgood []]
    rfl

/-- Segments of a resolved path have no slash: they come from `splitSlash`. -/
theorem resolved_no_slash (q : Str) (seg : Str)
    (h : seg ∈ resolveSegs (splitSlash q)) : '/' ∉ seg :=
  splitSlash_no_slash q seg (resolveSegs_good _ _ h).1

/-- The shape of the encoder on an absolute path: a slash followed by the
dot-rewritten join of the relative segments. -/
theorem encode_shape (root p : Str) (hp : isAbs p = true) :
    fileToImportPath root p = '/' :: rep2to3 (joinSlash (relSegsOf root p)) := by
  simp only [fileToImportPath, pathRelative]
  rw [pathResolve_abs root p hp]
  rw [reparse_resolved (resolveSegs (splitSlash p))
    (fun seg hs => resolved_no_slash p seg hs)
    (fun seg hs => (resolveSegs_good _ _ hs).2)]
  rfl

theorem relSegsOf_ne (root p : Str) (seg : Str) (h : seg ∈ relSegsOf root p) :
    seg = dotdot ∨ seg ∈ resolveSegs (splitSlash p) := by
  unfold relSegsOf at h
  rcases List.mem_append.mp h with h' | h'
  · left; exact List.eq_of_mem_replicate h'
  · right
    obtain ⟨com, h1, h2⟩ :=
      dropCommonPref_spec (resolveSegs (splitSlash root)) (resolveSegs (splitSlash p))
    rw [h2]
    exact List.mem_append.mpr (Or.inr h')

theorem relSegsOf_good (root p : Str) (seg : Str) (h : seg ∈ relSegsOf root p) :
    seg ≠ [] ∧ seg ≠ ['.'] ∧ '/' ∉ seg := by
  rcases relSegsOf_ne root p seg h with h' | h'
  · subst h'
    refine ⟨by decide, by decide, by decide⟩
  · have hg := resolveSegs_good _ _ h'
    exact ⟨hg.2.1, hg.2.2.1, splitSlash_no_slash p seg hg.1⟩

theorem okCh_spec (c : Char) (h : okCh c = true) : c ≠ '%' ∧ c ≠ '?' ∧ c ≠ '#' := by
  simp only [okCh, Bool.and_eq_true, bne_iff_ne] at h
  exact ⟨h.1.1, h.1.2, h.2⟩

theorem relSegsOf_chars_ok (root p : Str) (hok : okStr p = true) (c : Char)
    (h : c ∈ joinSlash (relSegsOf root p)) : okCh c = true := by
  rcases mem_joinSlash _ c h with ⟨x, hx, hcx⟩ | h'
  · rcases relSegsOf_ne root p x hx with h1 | h1
    · subst h1
      have hc : c = '.' := by
        rcases List.mem_cons.mp hcx with h2 | h2
        · exact h2
        · simpa using h2
      rw [hc]; decide
    · have hmem : c ∈ p := mem_splitSlash_chars p x (resolveSegs_good _ _ h1).1 c hcx
      exact List.all_eq_true.mp hok c hmem
  · rw [h']; decide

theorem encode_chars_ok (root p : Str) (hok : okStr p = true) (c : Char)
    (h : c ∈ rep2to3 (joinSlash (relSegsOf root p))) : okCh c = true := by
  rcases mem_rep2to3 _ c h with h' | h'
  · exact relSegsOf_chars_ok root p hok c h'
  · rw [h']; decide

theorem pathResolve_rel (root q : Str) (hq : isAbs q = false) :
    pathResolve root q =
      '/' :: joinSlash (resolveSegsAux (resolveSegs (splitSlash root)) (splitSlash q)) := by
  unfold pathResolve
  rw [if_neg (by simp [hq]),
    show resolveSegs (splitSlash root ++ splitSlash q) =
      resolveSegsAux (resolveSegs (splitSlash root)) (splitSlash q) from
      resolveSegsAux_append _ _ []]

theorem decode_encode (root p : Str) (hp : isAbs p = true)
    (hok : okStr p = true) (hroot3 : hasSub dotdotEncoding root = false) :
    importPathToFile root (fileToImportPath root p) =
      '/' :: joinSlash (resolveSegs (splitSlash root) ++ relSegsOf root p) := by
  rw [encode_shape root p hp]
  simp only [importPathToFile]
  have hchars : ∀ c ∈ ('/' :: rep2to3 (joinSlash (relSegsOf root p))), okCh c = true := by
    intro c hc
    rcases List.mem_cons.mp hc with h' | h'
    · rw [h']; decide
    · exact encode_chars_ok root p hok c h'
  have h1 : decodeURIComponent ('/' :: rep2to3 (joinSlash (relSegsOf root p)))
      = '/' :: rep2to3 (joinSlash (relSegsOf root p)) :=
    decodeURIComponent_id _ (fun c hc => (okCh_spec c (hchars c hc)).1)
  rw [h1]
  have h2 : cleanUrl ('/' :: rep2to3 (joinSlash (relSegsOf root p)))
      = '/' :: rep2to3 (joinSlash (relSegsOf root p)) :=
    cleanUrl_id _ (fun c hc =>
      ⟨(okCh_spec c (hchars c hc)).2.1, (okCh_spec c (hchars c hc)).2.2⟩)
  rw [h2]
  rw [show isAbs ('/' :: rep2to3 (joinSlash (relSegsOf root p))) = true from by simp [isAbs],
    if_pos rfl, List.tail_cons]
  have hR : List.map rep3to2 (resolveSegs (splitSlash root)) = resolveSegs (splitSlash root) := by
    have hcongr : ∀ seg ∈ resolveSegs (splitSlash root), rep3to2 seg = id seg := by
      intro seg hseg
      exact rep3to2_id_of_no_dots seg
        (hasSub_seg_false dotdotEncoding (by decide) root hroot3 seg
          (resolveSegs_good _ _ hseg).1)
    rw [List.map_congr_left hcongr, List.map_id]
  rcases hrel : relSegsOf root p with _ | ⟨x, xs⟩
  · simp only [joinSlash_nil, rep2to3_nil]
    rw [pathResolve_rel root [] (by simp [isAbs]), splitSlash_nil,
      resolveSegsAux_cons, if_pos (Or.inl rfl),
      show ∀ acc : List Str, resolveSegsAux acc [] = acc from fun _ => rfl]
    rw [rep3to2_cons_ne '/' _ slash_ne_dot, rep3to2_join, hR, List.append_nil]
  · have hgood' : ∀ seg ∈ (x :: xs), seg ≠ [] ∧ seg ≠ ['.'] ∧ '/' ∉ seg := by
      intro seg hseg
      exact relSegsOf_good root p seg (hrel ▸ hseg)
    have habs : isAbs (rep2to3 (joinSlash (x :: xs))) = false := by
      unfold isAbs
      rw [rep2to3_head, joinSlash_head x xs (hgood' x (by simp)).1]
      rcases hx : x with _ | ⟨c, t⟩
      · exact absurd hx (hgood' x (by simp)).1
      · have hc : c ≠ '/' := by
          intro hcs
          exact (hgood' x (by simp)).2.2 (by rw [hx, hcs]; exact List.mem_cons_self _ _)
        simp [hc]
    rw [pathResolve_rel root _ habs]
    have hsplit : splitSlash (rep2to3 (joinSlash (x :: xs))) = (x :: xs).map rep2to3 := by
      rw [rep2to3_join]
      refine splitSlash_joinSlash _ (by simp) ?_
      intro seg hseg
      obtain ⟨s0, hs0, hseg'⟩ := List.mem_map.mp hseg
      subst hseg'
      intro hmem
      rcases mem_rep2to3 s0 '/' hmem with h' | h'
      · exact (hgood' s0 hs0).2.2 h'
      · exact slash_ne_dot h'
    rw [hsplit]
    have hmapped_good : ∀ seg ∈ (x :: xs).map rep2to3,
        seg ≠ [] ∧ seg ≠ ['.'] ∧ seg ≠ ['.', '.'] := by
      intro seg hseg
      obtain ⟨s0, hs0, hseg'⟩ := List.mem_map.mp hseg
      subst hseg'
      refine ⟨?_, ?_, rep2to3_ne_dotdot s0⟩
      · intro hnil
        exact (hgood' s0 hs0).1 ((rep2to3_eq_nil_iff s0).mp hnil)
      · intro hdot
        exact (hgood' s0 hs0).2.1 (rep2to3_eq_single s0 '.' hdot)
    rw [resolveSegsAux_fixed _ hmapped_good]
    have hback : List.map (rep3to2 ∘ rep2to3) (x :: xs) = x :: xs := by
      have hcongr : ∀ s0 ∈ (x :: xs), (rep3to2 ∘ rep2to3) s0 = id s0 := by
        intro s0 _
        exact rep3to2_rep2to3 s0
      rw [List.map_congr_left hcongr, List.map_id]
    rw [rep3to2_cons_ne '/' _ slash_ne_dot, rep3to2_join, List.map_append, hR,
      List.map_map, hback]

theorem decode_resolves_back (root p : Str) :
    resolveSegs (splitSlash
      ('/' :: joinSlash (resolveSegs (splitSlash root) ++ relSegsOf root p))) =
      resolveSegs (splitSlash p) := by
  obtain ⟨com, hcom1, hcom2⟩ :=
    dropCommonPref_spec (resolveSegs (splitSlash root)) (resolveSegs (splitSlash p))
  have htr : ∀ seg ∈ (dropCommonPref (resolveSegs (splitSlash root))
      (resolveSegs (splitSlash p))).2, seg ≠ [] ∧ seg ≠ ['.'] ∧ seg ≠ ['.', '.'] := by
    intro seg hseg
    have hmem : seg ∈ resolveSegs (splitSlash p) := by
      rw [hcom2]
      exact List.mem_append.mpr (Or.inr hseg)
    exact (resolveSegs_good _ _ hmem).2
  have hmain : resolveSegsAux (resolveSegs (splitSlash root)) (relSegsOf root p)
      = resolveSegs (splitSlash p) := by
    unfold relSegsOf
    generalize hfr : (dropCommonPref (resolveSegs (splitSlash root))
      (resolveSegs (splitSlash p))).1 = fr at hcom1
    generalize htr2 : (dropCommonPref (resolveSegs (splitSlash root))
      (resolveSegs (splitSlash p))).2 = tr at hcom2 htr
    rw [resolveSegsAux_append, hcom1, resolveSegsAux_pop fr com,
      resolveSegsAux_fixed tr htr com, ← hcom2]
  rw [splitSlash_slash_cons]
  show resolveSegsAux []
    ([] :: splitSlash (joinSlash (resolveSegs (splitSlash root) ++ relSegsOf root p))) = _
  rw [resolveSegsAux_cons, if_pos (Or.inl rfl)]
  by_cases hcase : resolveSegs (splitSlash root) ++ relSegsOf root p = []
  · obtain ⟨hR0, hrel0⟩ := List.append_eq_nil.mp hcase
    rw [hcase]
    simp only [joinSlash_nil, splitSlash_nil]
    rw [resolveSegsAux_cons, if_pos (Or.inl rfl)]
    rw [hR0, hrel0] at hmain
    rw [show resolveSegsAux ([] : List Str) [] = [] from rfl] at hmain
    rw [← hmain]
    rfl
  · have hnoslash : ∀ seg ∈ resolveSegs (splitSlash root) ++ relSegsOf root p,
        '/' ∉ seg := by
      intro seg hseg
      rcases List.mem_append.mp hseg with h | h
      · exact resolved_no_slash root seg h
      · exact (relSegsOf_good root p seg h).2.2
    rw [splitSlash_joinSlash _ hcase hnoslash, resolveSegsAux_append,
      resolveSegsAux_fixed _ (fun seg hs => (resolveSegs_good (splitSlash root) seg hs).2) [],
      List.nil_append]
    exact hmain

theorem pathNormalize_abs (p : Str) (hp : isAbs p = true)
    (ht : p.getLast? ≠ some '/') :
    pathNormalize p = '/' :: joinSlash (resolveSegs (splitSlash p)) := by
  unfold pathNormalize
  simp only [hp, if_true, not_true_eq_false, and_false, if_false, ht]

/-! ## C2, C3, C4 — the path codec -/

/-- C2 counterexample: for the out-of-root path `/etc/x` under root `/r`,
decoding the encoding returns `/r/../etc/x` — the popped `..` segments are
re-resolved against the root and left textually in the result — which is not
the normalized input `/etc/x`, so the claimed string equality with
`normalize(p)` fails. -/
theorem claim_C2_counterexample :
    importPathToFile ((r"/r").data) (fileToImportPath ((r"/r").data) ((r"/etc/x").data)) =
      (r"/r/../etc/x").data ∧
    pathNormalize ((r"/etc/x").data) = (r"/etc/x").data ∧
    importPathToFile ((r"/r").data) (fileToImportPath ((r"/r").data) ((r"/etc/x").data)) ≠
      pathNormalize ((r"/etc/x").data) := by
  refine ⟨by decide, by decide, by decide⟩

/-- C2 (amended): for absolute `root` and `p`, with `p` free of the
URL-special characters `%`, `?`, `#`, no trailing slash, and a root without
the reserved `...` token, the round trip is the identity up to path
normalization — resolving the decoded result gives `normalize(p)` — and it is
the string identity `normalize(p)` exactly when `p` lies under the root. -/
theorem claim_C2_roundtrip_amended (root p : Str)
    (_hr : isAbs root = true) (hp : isAbs p = true)
    (hok : okStr p = true)
    (hroot3 : hasSub dotdotEncoding root = false)
    (htrail : p.getLast? ≠ some '/') :
    pathResolve root (importPathToFile root (fileToImportPath root p)) = pathNormalize p ∧
    (underRoot root p = true →
      importPathToFile root (fileToImportPath root p) = pathNormalize p) := by
  have hdec := decode_encode root p hp hok hroot3
  have hnorm := pathNormalize_abs p hp htrail
  constructor
  · rw [hdec, hnorm, pathResolve_abs _ _ (by simp [isAbs]), decode_resolves_back root p]
  · intro hu
    rw [hdec, hnorm]
    unfold underRoot at hu
    obtain ⟨t, ht⟩ := (isPrefixOf_ex _ _).mp hu
    have hrel : relSegsOf root p = t := by
      unfold relSegsOf
      rw [ht, dropCommonPref_append]
      simp
    rw [hrel, ← ht]

/-- C2 witness. -/
theorem claim_C2_witness :
    importPathToFile ((r"/r").data) (fileToImportPath ((r"/r").data) ((r"/r/a/b.js").data)) =
      pathNormalize ((r"/r/a/b.js").data) :=
  (claim_C2_roundtrip_amended ((r"/r").data) ((r"/r/a/b.js").data)
    (by decide) (by decide) (by decide) (by decide) (by decide)).2 (by decide)

theorem joinSlash_inj (a b : List Str)
    (ha : ∀ seg ∈ a, '/' ∉ seg) (hb : ∀ seg ∈ b, '/' ∉ seg)
    (hane : ∀ seg ∈ a, seg ≠ []) (hbne : ∀ seg ∈ b, seg ≠ [])
    (h : joinSlash a = joinSlash b) : a = b := by
  rcases a with _ | ⟨x, xs⟩
  · rcases b with _ | ⟨y, ys⟩
    · rfl
    · exfalso
      rw [joinSlash_nil] at h
      rcases ys with _ | ⟨z, zs⟩
      · exact hbne y (by simp) h.symm
      · rw [joinSlash_cons _ _ (by simp)] at h
        have hlen := congrArg List.length h
        simp at hlen
        omega
  · rcases b with _ | ⟨y, ys⟩
    · exfalso
      rw [joinSlash_nil] at h
      rcases xs with _ | ⟨z, zs⟩
      · exact hane x (by simp) h
      · rw [joinSlash_cons _ _ (by simp)] at h
        have hlen := congrArg List.length h
        simp at hlen
    · rw [← splitSlash_joinSlash (x :: xs) (by simp) ha, h,
        splitSlash_joinSlash (y :: ys) (by simp) hb]

/-- C3: the encoding is collision-free for a fixed root: two distinct
filesystem paths under the root — distinct as paths, that is, with different
resolved forms, since strings like `/r/a` and `/r//a` denote one path —
receive different URL paths. -/
theorem claim_C3_encode_injective (root p1 p2 : Str)
    (_hr : isAbs root = true) (h1 : isAbs p1 = true) (h2 : isAbs p2 = true)
    (hu1 : underRoot root p1 = true) (hu2 : underRoot root p2 = true)
    (hne : pathResolve root p1 ≠ pathResolve root p2) :
    fileToImportPath root p1 ≠ fileToImportPath root p2 := by
  intro heq
  apply hne
  rw [encode_shape root p1 h1, encode_shape root p2 h2] at heq
  injection heq with _ heq2
  have hj : joinSlash (relSegsOf root p1) = joinSlash (relSegsOf root p2) := by
    have hcongr := congrArg rep3to2 heq2
    rwa [rep3to2_rep2to3, rep3to2_rep2to3] at hcongr
  unfold underRoot at hu1 hu2
  obtain ⟨t1, ht1⟩ := (isPrefixOf_ex _ _).mp hu1
  obtain ⟨t2, ht2⟩ := (isPrefixOf_ex _ _).mp hu2
  have hrel1 : relSegsOf root p1 = t1 := by
    unfold relSegsOf
    rw [ht1, dropCommonPref_append]
    simp
  have hrel2 : relSegsOf root p2 = t2 := by
    unfold relSegsOf
    rw [ht2, dropCommonPref_append]
    simp
  rw [hrel1, hrel2] at hj
  have hmem1 : ∀ seg ∈ t1, seg ∈ resolveSegs (splitSlash p1) := by
    intro seg hs
    rw [ht1]
    exact List.mem_append.mpr (Or.inr hs)
  have hmem2 : ∀ seg ∈ t2, seg ∈ resolveSegs (splitSlash p2) := by
    intro seg hs
    rw [ht2]
    exact List.mem_append.mpr (Or.inr hs)
  have ht12 : t1 = t2 :=
    joinSlash_inj t1 t2
      (fun seg hs => resolved_no_slash p1 seg (hmem1 seg hs))
      (fun seg hs => resolved_no_slash p2 seg (hmem2 seg hs))
      (fun seg hs => (resolveSegs_good _ _ (hmem1 seg hs)).2.1)
      (fun seg hs => (resolveSegs_good _ _ (hmem2 seg hs)).2.1)
      hj
  rw [pathResolve_abs root p1 h1, pathResolve_abs root p2 h2, ht1, ht2, ht12]

/-- C3 witness. -/
theorem claim_C3_witness :
    fileToImportPath ((r"/r").data) ((r"/r/a").data) ≠
      fileToImportPath ((r"/r").data) ((r"/r/b").data) :=
  claim_C3_encode_injective ((r"/r").data) ((r"/r/a").data) ((r"/r/b").data)
    (by decide) (by decide) (by decide) (by decide) (by decide) (by decide)

/-- C4: the URL produced by the encoder never contains a path segment that is
the literal two-character `..` — every such run was rewritten into the
three-dot escape token, whose rewriting never produces a two-dot segment. -/
theorem claim_C4_no_dotdot_segment (root p : Str) :
    (splitSlash (fileToImportPath root p)).all (fun seg => seg != dotdot) = true := by
  rw [List.all_eq_true]
  intro seg hseg
  rw [show fileToImportPath root p =
      '/' :: rep2to3 (pathRelative root (pathResolve root p)) from rfl,
    splitSlash_slash_cons] at hseg
  rcases List.mem_cons.mp hseg with h | h
  · subst h; decide
  · have hdist : splitSlash (rep2to3 (pathRelative root (pathResolve root p))) =
        (splitSlash (pathRelative root (pathResolve root p))).map rep2to3 := by
      conv_lhs => rw [← joinSlash_splitSlash (pathRelative root (pathResolve root p))]
      rw [rep2to3_join]
      refine splitSlash_joinSlash _
        (fun hmap => splitSlash_ne_nil _ (List.map_eq_nil_iff.mp hmap)) ?_
      intro seg' hseg'
      obtain ⟨s0, hs0, hs0'⟩ := List.mem_map.mp hseg'
      subst hs0'
      intro hmem
      rcases mem_rep2to3 s0 '/' hmem with h' | h'
      · exact splitSlash_no_slash _ s0 hs0 h'
      · exact slash_ne_dot h'
    rw [hdist] at h
    obtain ⟨s0, hs0, hs0'⟩ := List.mem_map.mp h
    subst hs0'
    simp only [bne_iff_ne, ne_eq]
    exact rep2to3_ne_dotdot s0
